import Mathlib

/-! Radar signal processing toolkit: embedding and verified properties.

Shallow embedding of `src/signal_processor.cpp` and `src/signal_generator.cpp`.

Conventions of the embedding.

* `std::vector<T>` is a `List`; `std::complex<double>` is a commutative ring `K`
  for the purely algebraic routines (`matchedFilter`, the butterfly recursion of
  `fft`), instantiated at `ℂ` in every theorem, and is `ℂ` itself wherever the
  code calls `cos`, `sin`, `pow`, `sqrt`, `norm` or `abs`.  `double` is `ℝ`:
  the statements are about exact real and complex arithmetic, with one
  exception.
* The chip count of `generateBarkerCode` is `static_cast<size_t>((1.0 / fs) * fs)`,
  a truncation of a product that equals `1` only up to rounding.  There the
  two operations are rounded to binary64 (`roundBinary64`, round to nearest,
  ties to even, normal range) and `fs` is the rational value of the argument.
* The constant `PI = 3.14159265358979323846` is read as the real number `π`.
* `size_t` is a natural number below `2 ^ 64`; the index arithmetic of
  `cfarDetection` is taken modulo `2 ^ 64` (`sizeAdd`, `sizeSub`), and a read
  `v[j]` with `j ≥ v.size()` is reported as `Except.error j`.
* `for (j = lo; j < hi; ++j)` over an unmodified counter is the counted loop
  `forLoop body (hi - lo) lo`.
-/

namespace RadarToolkit

/-! ## signal_processor.cpp -/

/-- The constant `PI` of both translation units, read as the real number π. -/
noncomputable def PI : ℝ := Real.pi

/-- The constant `C = 3.0e8` (speed of light). -/
def C : ℝ := 300000000

section Algebraic

variable {K : Type} [CommRing K]

/-- Lines 25-30 of `fft`: the recombination loop over the two transformed
halves, entered with running twiddle `w`.  Each step computes `t = w * odd[i]`,
writes `even[i] + t` to `data[i]` and `even[i] - t` to `data[i + n/2]`, then
`w *= wn`.  Returns the values written to the lower and to the upper half. -/
def butterfly (wn : K) : K → List K → List K → List K × List K
  | w, e :: even, o :: odd =>
    let t := w * o
    let rest := butterfly wn (w * wn) even odd
    ((e + t) :: rest.1, (e - t) :: rest.2)
  | _, _, _ => ([], [])

/-- Lines 14-18 of `fft`: `even[i] = data[i * 2]` for `i < n / 2`. -/
def evenPart (data : List K) : List K :=
  (List.range (data.length / 2)).map (fun i => data.getD (i * 2) 0)

/-- Lines 14-18 of `fft`: `odd[i] = data[i * 2 + 1]` for `i < n / 2`. -/
def oddPart (data : List K) : List K :=
  (List.range (data.length / 2)).map (fun i => data.getD (i * 2 + 1) 0)

/-- The recursion of `SignalProcessor::fft` with the twiddle factor of a block
of size `n` supplied as `twiddle n` (the code's `wn`).  The transform is in
place: positions `i` and `i + n/2` are overwritten for `i < n/2`, so for odd
`n` the last element keeps its value. -/
def fftWith (twiddle : ℕ → K) (data : List K) : List K :=
  if _h : data.length ≤ 1 then data
  else
    let even := fftWith twiddle (evenPart data)
    let odd := fftWith twiddle (oddPart data)
    let halves := butterfly (twiddle data.length) 1 even odd
    halves.1 ++ halves.2 ++ data.drop (2 * (data.length / 2))
termination_by data.length
decreasing_by
  all_goals simp_wf
  · simp only [evenPart, List.length_map, List.length_range]; omega
  · simp only [oddPart, List.length_map, List.length_range]; omega

/-- The naive discrete Fourier transform with root `ω`, the reference for
`fftWith`: element `k` of the result is `Σ_{m < N} x[m] * ω ^ (k * m)`. -/
def naiveDft (ω : K) (x : List K) : List K :=
  (List.range x.length).map
    (fun k => ∑ m ∈ Finset.range x.length, x.getD m 0 * ω ^ (k * m))

variable [StarRing K]

/-- Lines 39-42 of `matchedFilter`: `output[i] = 0.0`, then for `j = 0, 1, ...`
while `j < ref_size && i >= j`, `output[i] += signal[i - j] * conj(reference[j])`. -/
def matchedFilterCell (signal reference : List K) (i : ℕ) : K :=
  ((List.range reference.length).takeWhile (fun j => decide (j ≤ i))).foldl
    (fun acc j => acc + signal.getD (i - j) 0 * star (reference.getD j 0)) 0

/-- `SignalProcessor::matchedFilter`. -/
def matchedFilter (signal reference : List K) : List K :=
  (List.range signal.length).map (matchedFilterCell signal reference)

end Algebraic

/-- Lines 23-24 of `fft`: `angle = 2 * PI / n * (inverse ? -1 : 1)` and
`wn = (cos angle, sin angle)`. -/
noncomputable def twiddle (inverse : Bool) (n : ℕ) : ℂ :=
  let angle : ℝ := 2 * PI / (n : ℝ) * (if inverse then -1 else 1)
  ⟨Real.cos angle, Real.sin angle⟩

/-- `SignalProcessor::fft(data, inverse)`; the returned list is the content of
`data` after the call. -/
noncomputable def fft (data : List ℂ) (inverse : Bool) : List ℂ :=
  fftWith (twiddle inverse) data

/-- The modulus of `size_t` arithmetic. -/
def sizeMod : ℕ := 2 ^ 64

/-- Addition of `size_t` values. -/
def sizeAdd (a b : ℕ) : ℕ := (a + b) % sizeMod

/-- Subtraction of `size_t` values (wraps below zero). -/
def sizeSub (a b : ℕ) : ℕ := (a + (sizeMod - b % sizeMod)) % sizeMod

section Cfar

/-- A counted loop `for (j = lo; j < hi; ++j) body`: `forLoop body (hi - lo) lo s`
runs `body` at `j = lo, lo + 1, ...` for `hi - lo` iterations (none when
`hi ≤ lo`) and stops at the first out-of-range read. -/
def forLoop {σ : Type} (body : σ → ℕ → Except ℕ σ) : ℕ → ℕ → σ → Except ℕ σ
  | 0, _, s => Except.ok s
  | count + 1, j, s =>
    match body s j with
    | Except.ok s1 => forLoop body count (j + 1) s1
    | Except.error e => Except.error e

variable {K R : Type} [LinearOrderedField R]

/-- Body of the training-window loops of `cfarDetection` (lines 57-58 and
61-62): `noise_power += norm(signal[j]); count++;` on the pair
`(noise_power, count)`.  A read past the end is `Except.error j`. -/
def trainingBody (norm : K → R) (signal : List K) (p : R × ℕ) (j : ℕ) : Except ℕ (R × ℕ) :=
  match signal[j]? with
  | some z => Except.ok (p.1 + norm z, p.2 + 1)
  | none => Except.error j

/-- Body of the outer loop of `cfarDetection` (lines 53-69) at index `i`:
the leading window `for (j = i - guard - training; j < i - guard; ++j)`, the
trailing window `for (j = i + guard + 1; j <= i + guard + training; ++j)`, the
division by `count` and the comparison. -/
def cfarStep (norm : K → R) (threshold_factor : R) (signal : List K)
    (guard_cells training_cells : ℕ) (detections : List ℕ) (i : ℕ) : Except ℕ (List ℕ) :=
  let lo0 := sizeSub (sizeSub i guard_cells) training_cells
  let hi0 := sizeSub i guard_cells
  let lo1 := sizeAdd (sizeAdd i guard_cells) 1
  let hi1 := sizeAdd (sizeAdd i guard_cells) training_cells
  match forLoop (trainingBody norm signal) (hi0 - lo0) lo0 (0, 0) with
  | Except.error e => Except.error e
  | Except.ok p0 =>
    match forLoop (trainingBody norm signal) (hi1 + 1 - lo1) lo1 p0 with
    | Except.error e => Except.error e
    | Except.ok p1 =>
      let noise_power := p1.1 / (p1.2 : R)
      let threshold := noise_power * threshold_factor
      match signal[i]? with
      | some z =>
        if norm z > threshold then Except.ok (detections ++ [i]) else Except.ok detections
      | none => Except.error i

/-- The scan of `cfarDetection` (lines 52-71) for a given power function and
threshold factor: `for (i = guard + training; i < size - guard - training; ++i)`
in `size_t` arithmetic. -/
def cfarScan (norm : K → R) (threshold_factor : R) (signal : List K)
    (guard_cells training_cells : ℕ) : Except ℕ (List ℕ) :=
  let start := sizeAdd guard_cells training_cells
  let stop := sizeSub (sizeSub signal.length guard_cells) training_cells
  forLoop (cfarStep norm threshold_factor signal guard_cells training_cells)
    (stop - start) start []

/-- The comparison made by one iteration of the scan of `cfarDetection` at an
index `i` whose two windows lie inside the signal, on exact sums:
`norm(signal[i]) > noise_power / count * threshold_factor`. -/
def cfarTest (norm : K → R) (threshold_factor : R) (signal : List K) [Zero K]
    (guard_cells training_cells : ℕ) (i : ℕ) : Prop :=
  norm (signal.getD i 0) >
    (0 + ∑ j ∈ Finset.Ico (i - guard_cells - training_cells) (i - guard_cells),
          norm (signal.getD j 0)
       + ∑ j ∈ Finset.Ico (i + guard_cells + 1) (i + guard_cells + 1 + training_cells),
          norm (signal.getD j 0))
      / ((0 + training_cells + training_cells : ℕ) : R) * threshold_factor

end Cfar

/-- `SignalProcessor::cfarDetection`: `threshold_factor = pow(pfa, -1.0 / training_cells) - 1`
and `std::norm` as the power of a sample.  `Except.ok l` is the returned vector,
`Except.error j` an out-of-range read `signal[j]`. -/
noncomputable def cfarDetection (signal : List ℂ) (guard_cells training_cells : ℕ) (pfa : ℝ) :
    Except ℕ (List ℕ) :=
  cfarScan Complex.normSq (pfa ^ (-1 / (training_cells : ℝ)) - 1) signal
    guard_cells training_cells

/-- The noise estimate in the words of the specification: the mean of
`|signal[j]|²` over the `2t` indices `j` in `[i-g-t, i-g)` and `[i+g+1, i+g+t]`. -/
noncomputable def trainingMean (signal : List ℂ) (g t i : ℕ) : ℝ :=
  (∑ j ∈ Finset.Ico (i - g - t) (i - g), Complex.abs (signal.getD j 0) ^ 2
    + ∑ j ∈ Finset.Icc (i + g + 1) (i + g + t), Complex.abs (signal.getD j 0) ^ 2)
  / (2 * (t : ℝ))

/-- `SignalProcessor::computeDoppler`. -/
noncomputable def computeDoppler (signal : List ℂ) (f0 fs velocity : ℝ) : List ℂ :=
  let spectrum := fft signal false
  let doppler_shift := 2 * velocity * f0 / C
  (List.range spectrum.length).map (fun (i : ℕ) =>
    let freq := (i : ℝ) * fs / (spectrum.length : ℝ)
    if |freq - doppler_shift| < fs / (spectrum.length : ℝ) then spectrum.getD i 0 else 0)

/-- Line 94 of `rangeDopplerMap`: `map[i][j] = std::abs(spectrum[j])` on row `i`
of the map.  A write past the end of the row is `Except.error j`. -/
noncomputable def writeRow (spectrum : List ℂ) (row : List ℝ) (j : ℕ) : Except ℕ (List ℝ) :=
  if j < row.length then Except.ok (row.set j (Complex.abs (spectrum.getD j 0)))
  else Except.error j

/-- Lines 91-95 of `rangeDopplerMap`, the body of the loop over the pulses:
copy pulse `i`, transform it, and write the magnitudes of its bins into row `i`. -/
noncomputable def mapRow (pulses : List (List ℂ)) (map : List (List ℝ)) (i : ℕ) :
    Except ℕ (List (List ℝ)) :=
  let spectrum := fft (pulses.getD i []) false
  match forLoop (writeRow spectrum) spectrum.length 0 (map.getD i []) with
  | Except.ok row => Except.ok (map.set i row)
  | Except.error e => Except.error e

/-- `SignalProcessor::rangeDopplerMap`.  The map starts as `pulses.size()` rows
of `pulses[0].size()` zeros; `pulses[0]` on an empty train is `Except.error 0`.
The parameters `f0` and `fs` are not used by the code. -/
noncomputable def rangeDopplerMap (pulses : List (List ℂ)) (_f0 _fs : ℝ) :
    Except ℕ (List (List ℝ)) :=
  match pulses[0]? with
  | none => Except.error 0
  | some first =>
    forLoop (mapRow pulses) pulses.length 0
      (List.replicate pulses.length (List.replicate first.length 0))

/-- The transform in the words of the specification: element `k` is the sum
over `m < N` of `x[m] * exp (s * 2πi * k * m / N)`, with `s = +1` for the
forward and `s = -1` for the inverse direction, and no `1/N` factor. -/
noncomputable def dftSpec (x : List ℂ) (inverse : Bool) : List ℂ :=
  (List.range x.length).map (fun (k : ℕ) =>
    ∑ m ∈ Finset.range x.length,
      x.getD m 0 * Complex.exp ((if inverse then -1 else 1) * (2 * (Real.pi : ℂ) * Complex.I)
        * (k : ℂ) * (m : ℂ) / (x.length : ℂ)))

/-! ## signal_generator.cpp -/

/-- `SignalGenerator::generateChirp`; `static_cast<size_t>` of a non-negative
real is its floor. -/
noncomputable def generateChirp (f0 bandwidth duration fs : ℝ) : List ℂ :=
  let num_samples := ⌊duration * fs⌋₊
  let t_step := 1 / fs
  let k := bandwidth / duration
  (List.range num_samples).map (fun (i : ℕ) =>
    let t := (i : ℝ) * t_step
    let phase := 2 * PI * (f0 * t + 0.5 * k * t * t)
    (⟨Real.cos phase, Real.sin phase⟩ : ℂ))

/-- Lines 25-28 of `generateBarkerCode`: the polarity table chosen by
`code_length`, `none` for the early `return {}`. -/
def barkerTable (code_length : ℤ) : Option (List ℤ) :=
  if code_length = 7 then some [1, 1, 1, -1, -1, 1, -1]
  else if code_length = 13 then some [1, 1, 1, 1, 1, -1, -1, 1, 1, -1, 1, -1, 1]
  else none

/-- Rounding of a rational to the nearest integer, ties to the even one. -/
def roundHalfEven (x : ℚ) : ℤ :=
  let f := ⌊x⌋
  if x - f < 1 / 2 then f
  else if 1 / 2 < x - f then f + 1
  else if f % 2 = 0 then f else f + 1

/-- The binary64 value nearest to the rational `q` (53-bit significand, round
to nearest, ties to even), for `q` in the normal range of the format: with
`2 ^ e ≤ |q| < 2 ^ (e + 1)` the result is a multiple of `2 ^ (e - 52)`. -/
def roundBinary64 (q : ℚ) : ℚ :=
  if q = 0 then 0
  else
    let ulp : ℚ := 2 ^ (Int.log 2 |q| - 52)
    (roundHalfEven (q / ulp) : ℚ) * ulp

/-- Lines 31 and 33 of `generateBarkerCode`: `chip_duration = 1.0 / fs` and the
loop bound `static_cast<size_t>(chip_duration * fs)`, both operations in
binary64; `fs` is the rational value of the `double` argument. -/
def chipSamples (fs : ℚ) : ℕ :=
  let chip_duration := roundBinary64 (1 / fs)
  ⌊roundBinary64 (chip_duration * fs)⌋₊

/-- `SignalGenerator::generateBarkerCode`: every polarity is emitted
`static_cast<size_t>(chip_duration * fs)` times as `(phase, 0.0)`. -/
def generateBarkerCode (code_length : ℤ) (fs : ℚ) : List ℂ :=
  match barkerTable code_length with
  | none => []
  | some barker =>
    barker.flatMap (fun phase => List.replicate (chipSamples fs) (⟨(phase : ℝ), 0⟩ : ℂ))

/-- Lines 44-45 and 59-60: `std::accumulate` of `std::norm` over the signal,
divided by `signal.size()`. -/
noncomputable def meanPower (signal : List ℂ) : ℝ :=
  signal.foldl (fun sum s => sum + Complex.normSq s) 0 / (signal.length : ℝ)

/-- The loop `for (auto& sample : signal) sample += complex(dist(gen), dist(gen))`
shared by `addNoise` and `addClutter`.  `draw std k` is the value of the `k`-th
call `dist(gen)` of a `normal_distribution(0.0, std)` on the freshly seeded
generator; sample `k` takes calls `2k` and `2k + 1`. -/
def addDraws (signal : List ℂ) (draw : ℕ → ℝ) : List ℂ :=
  signal.enum.map (fun p => p.2 + (⟨draw (2 * p.1), draw (2 * p.1 + 1)⟩ : ℂ))

/-- `SignalGenerator::addNoise`; the result is the content of `signal` after
the call. -/
noncomputable def addNoise (signal : List ℂ) (snr_db : ℝ) (draw : ℝ → ℕ → ℝ) : List ℂ :=
  let snr : ℝ := (10 : ℝ) ^ (snr_db / 10)
  let signal_power := meanPower signal
  let noise_power := signal_power / snr
  let noise_std := Real.sqrt (noise_power / 2)
  addDraws signal (draw noise_std)

/-- `SignalGenerator::addClutter`; the result is the content of `signal` after
the call. -/
noncomputable def addClutter (signal : List ℂ) (cnr_db : ℝ) (draw : ℝ → ℕ → ℝ) : List ℂ :=
  let cnr : ℝ := (10 : ℝ) ^ (cnr_db / 10)
  let signal_power := meanPower signal
  let clutter_power := signal_power * cnr
  let clutter_std := Real.sqrt (clutter_power / 2)
  addDraws signal (draw clutter_std)

/-! ## Matched filter -/

theorem range_takeWhile_le (n i : ℕ) :
    (List.range n).takeWhile (fun j => decide (j ≤ i)) = List.range (min (i + 1) n) := by
  induction n with
  | zero => simp
  | succ n ih =>
    rw [List.range_succ, List.takeWhile_append, ih]
    simp only [List.length_range, List.takeWhile_cons, List.takeWhile_nil]
    by_cases h : n ≤ i
    · have h1 : min (i + 1) n = n := by omega
      have h2 : min (i + 1) (n + 1) = n + 1 := by omega
      rw [h1, h2, List.range_succ]
      simp [h]
    · have h1 : min (i + 1) n = i + 1 := by omega
      have h2 : min (i + 1) (n + 1) = i + 1 := by omega
      rw [h1, h2]
      by_cases hl : i + 1 = n
      · simp [hl, h]
      · simp [hl]

theorem foldl_add_range {M : Type} [AddCommMonoid M] (f : ℕ → M) (m : ℕ) :
    (List.range m).foldl (fun acc j => acc + f j) 0 = ∑ j ∈ Finset.range m, f j := by
  induction m with
  | zero => simp
  | succ m ih => rw [List.range_succ, List.foldl_append, ih, Finset.sum_range_succ]; simp

/-- The accumulation loop of one output cell as a finite sum. -/
theorem matchedFilterCell_eq {K : Type} [CommRing K] [StarRing K]
    (signal reference : List K) (i : ℕ) :
    matchedFilterCell signal reference i =
      ∑ j ∈ Finset.range (min (i + 1) reference.length),
        signal.getD (i - j) 0 * star (reference.getD j 0) := by
  unfold matchedFilterCell
  rw [range_takeWhile_le, foldl_add_range]

theorem matchedFilter_length {K : Type} [CommRing K] [StarRing K]
    (signal reference : List K) :
    (matchedFilter signal reference).length = signal.length := by
  simp [matchedFilter]

theorem matchedFilter_getElem? {K : Type} [CommRing K] [StarRing K]
    (signal reference : List K) (i : ℕ) (hi : i < signal.length) :
    (matchedFilter signal reference)[i]? = some (matchedFilterCell signal reference i) := by
  simp [matchedFilter, List.getElem?_map, List.getElem?_range hi]

/-- C1: for every signal and reference, `matchedFilter signal reference` has
the length of `signal`, and for every `i < |signal|` its element `i` is the sum
over `j = 0 .. min i (|reference| - 1)` of `signal[i - j] * conj reference[j]`
(zero for an empty reference), over `ℂ`. -/
theorem matchedFilter_spec (signal reference : List ℂ) :
    (matchedFilter signal reference).length = signal.length ∧
    ∀ i, i < signal.length →
      (matchedFilter signal reference)[i]? =
        some (if reference.length = 0 then 0 else
          ∑ j ∈ Finset.Icc 0 (min i (reference.length - 1)),
            signal.getD (i - j) 0 * (starRingEnd ℂ) (reference.getD j 0)) := by
  refine ⟨matchedFilter_length signal reference, fun i hi => ?_⟩
  rw [matchedFilter_getElem? signal reference i hi, matchedFilterCell_eq]
  congr 1
  split_ifs with h0
  · simp [h0]
  · have hI : Finset.Icc 0 (min i (reference.length - 1)) =
        Finset.range (min (i + 1) reference.length) := by
      ext j; simp only [Finset.mem_Icc, Finset.mem_range]; omega
    rw [hI]
    rfl

theorem matchedFilter_spec_witness :
    (matchedFilter ([] : List ℂ) [Complex.I, 1]).length = ([] : List ℂ).length ∧
    (matchedFilter ([2, Complex.I] : List ℂ) [Complex.I, 1]).length
        = ([2, Complex.I] : List ℂ).length ∧
    (matchedFilter ([2, Complex.I] : List ℂ) [Complex.I, 1])[1]? =
      some (if ([Complex.I, 1] : List ℂ).length = 0 then 0 else
        ∑ j ∈ Finset.Icc 0 (min 1 (([Complex.I, 1] : List ℂ).length - 1)),
          ([2, Complex.I] : List ℂ).getD (1 - j) 0 *
            (starRingEnd ℂ) (([Complex.I, 1] : List ℂ).getD j 0)) :=
  ⟨(matchedFilter_spec [] [Complex.I, 1]).1,
    (matchedFilter_spec [2, Complex.I] [Complex.I, 1]).1,
    (matchedFilter_spec [2, Complex.I] [Complex.I, 1]).2 1 (by simp)⟩

/-- Output of the filter for a constant pulse matched against itself. -/
theorem matchedFilterCell_replicate (N : ℕ) (c : ℂ) (i : ℕ) (hi : i < N) :
    matchedFilterCell (List.replicate N c) (List.replicate N c) i =
      (((i + 1 : ℕ) : ℝ) * Complex.normSq c : ℝ) := by
  rw [matchedFilterCell_eq]
  have hmin : min (i + 1) (List.replicate N c).length = i + 1 := by
    simp only [List.length_replicate]; omega
  rw [hmin]
  have hterm : ∀ j ∈ Finset.range (i + 1),
      (List.replicate N c).getD (i - j) 0 * star ((List.replicate N c).getD j 0)
        = c * (starRingEnd ℂ) c := by
    intro j hj
    have hj1 : j < i + 1 := Finset.mem_range.mp hj
    have h1 : (List.replicate N c).getD (i - j) 0 = c := by
      rw [List.getD_eq_getElem?_getD, List.getElem?_replicate]
      have : i - j < N := by omega
      simp [this]
    have h2 : (List.replicate N c).getD j 0 = c := by
      rw [List.getD_eq_getElem?_getD, List.getElem?_replicate]
      have : j < N := by omega
      simp [this]
    rw [h1, h2]; rfl
  rw [Finset.sum_congr rfl hterm, Finset.sum_const, Finset.card_range, Complex.mul_conj]
  simp [nsmul_eq_mul]

/-- C7: for the unmodulated pulse of `N ≥ 1` copies of `c ≠ 0`, the magnitude of
`matchedFilter s s` at index `N - 1` is strictly greater than at every other
index `i < N - 1`. -/
theorem matchedFilter_pulse_peak (N : ℕ) (c : ℂ) (hN : 1 ≤ N) (hc : c ≠ 0)
    (i : ℕ) (hi : i < N - 1) :
    Complex.abs ((matchedFilter (List.replicate N c) (List.replicate N c)).getD i 0) <
      Complex.abs ((matchedFilter (List.replicate N c) (List.replicate N c)).getD (N - 1) 0) := by
  have hlen : (List.replicate N c).length = N := List.length_replicate _ _
  have hcell : ∀ k, k < N →
      (matchedFilter (List.replicate N c) (List.replicate N c)).getD k 0 =
        (((k + 1 : ℕ) : ℝ) * Complex.normSq c : ℝ) := by
    intro k hk
    rw [List.getD_eq_getElem?_getD,
      matchedFilter_getElem? _ _ k (by rw [hlen]; exact hk), Option.getD_some,
      matchedFilterCell_replicate N c k hk]
  have hpos : 0 < Complex.normSq c := Complex.normSq_pos.mpr hc
  rw [hcell i (by omega), hcell (N - 1) (by omega), Complex.abs_ofReal, Complex.abs_ofReal,
    abs_of_nonneg (by positivity), abs_of_nonneg (by positivity)]
  have hlt : (((i + 1 : ℕ) : ℝ)) < (((N - 1 + 1 : ℕ) : ℝ)) := by
    exact_mod_cast (by omega : i + 1 < N - 1 + 1)
  exact mul_lt_mul_of_pos_right hlt hpos

theorem matchedFilter_pulse_peak_witness :
    (1 ≤ 3) ∧ ((2 : ℂ) ≠ 0) ∧ (0 < 3 - 1) ∧
    Complex.abs ((matchedFilter (List.replicate 3 (2 : ℂ)) (List.replicate 3 2)).getD 0 0) <
      Complex.abs ((matchedFilter (List.replicate 3 (2 : ℂ)) (List.replicate 3 2)).getD (3 - 1) 0) :=
  ⟨by decide, by norm_num, by decide,
    matchedFilter_pulse_peak 3 2 (by decide) (by norm_num) 0 (by decide)⟩


/-! ## Waveform synthesis -/

theorem generateChirp_length (f0 bandwidth duration fs : ℝ) :
    (generateChirp f0 bandwidth duration fs).length = ⌊duration * fs⌋₊ := by
  simp [generateChirp]

/-- Sample `i` of the chirp, with the phase written as in the source. -/
theorem generateChirp_getElem? (f0 bandwidth duration fs : ℝ) (i : ℕ)
    (hi : i < ⌊duration * fs⌋₊) :
    (generateChirp f0 bandwidth duration fs)[i]? =
      some (⟨Real.cos (2 * PI * (f0 * ((i : ℝ) * (1 / fs))
              + 0.5 * (bandwidth / duration) * ((i : ℝ) * (1 / fs)) * ((i : ℝ) * (1 / fs)))),
            Real.sin (2 * PI * (f0 * ((i : ℝ) * (1 / fs))
              + 0.5 * (bandwidth / duration) * ((i : ℝ) * (1 / fs)) * ((i : ℝ) * (1 / fs))))⟩ : ℂ) := by
  simp [generateChirp, List.getElem?_map, List.getElem?_range hi]

theorem intLog_two_eq (q : ℚ) (e : ℤ) (h1 : (2 : ℚ) ^ e ≤ q) (h2 : q < (2 : ℚ) ^ (e + 1)) :
    Int.log 2 q = e := by
  have hq : 0 < q := lt_of_lt_of_le (zpow_pos (by norm_num) e) h1
  apply le_antisymm
  · have h := (Int.lt_zpow_iff_log_lt (b := 2) (by norm_num) hq).mp h2
    omega
  · exact (Int.zpow_le_iff_le_log (b := 2) (by norm_num) hq).mp h1

theorem roundHalfEven_down (x : ℚ) (f : ℤ) (h1 : (f : ℚ) ≤ x) (h2 : x - f < 1 / 2) :
    roundHalfEven x = f := by
  have hf : ⌊x⌋ = f := Int.floor_eq_iff.mpr ⟨h1, by linarith⟩
  unfold roundHalfEven
  simp only [hf, h2, if_true]

theorem roundHalfEven_up (x : ℚ) (f : ℤ) (h1 : 1 / 2 < x - f) (h2 : x < f + 1) :
    roundHalfEven x = f + 1 := by
  have hf : ⌊x⌋ = f := Int.floor_eq_iff.mpr ⟨by linarith, h2⟩
  unfold roundHalfEven
  simp only [hf, h1, if_true, if_neg (not_lt.mpr (le_of_lt h1))]

/-- `1.0 / 49.0` in binary64. -/
theorem roundBinary64_inv_49 :
    roundBinary64 (1 / 49) = 5882252574524729 / 2 ^ 58 := by
  have hlog : Int.log 2 |(1 / 49 : ℚ)| = -6 := by
    apply intLog_two_eq
    · rw [abs_of_pos (by norm_num)]; norm_num
    · rw [abs_of_pos (by norm_num)]; norm_num
  unfold roundBinary64
  rw [if_neg (by norm_num), hlog]
  simp only []
  rw [roundHalfEven_down _ 5882252574524729 (by norm_num) (by norm_num)]
  norm_num

/-- `(1.0 / 49.0) * 49.0` in binary64 is `1 - 2⁻⁵³`, below one. -/
theorem roundBinary64_chip_49 :
    roundBinary64 (roundBinary64 (1 / 49) * 49) = 9007199254740991 / 2 ^ 53 := by
  rw [roundBinary64_inv_49]
  have hlog : Int.log 2 |(5882252574524729 / 2 ^ 58 * 49 : ℚ)| = -1 := by
    apply intLog_two_eq
    · rw [abs_of_pos (by norm_num)]; norm_num
    · rw [abs_of_pos (by norm_num)]; norm_num
  unfold roundBinary64
  rw [if_neg (by norm_num), hlog]
  simp only []
  rw [roundHalfEven_down _ 9007199254740991 (by norm_num) (by norm_num)]
  norm_num

theorem chipSamples_49 : chipSamples 49 = 0 := by
  unfold chipSamples
  simp only []
  rw [roundBinary64_chip_49, Nat.floor_eq_zero]
  norm_num

/-- At the sampling rate of the test suite, `1e9`, the chip count is one. -/
theorem chipSamples_test_rate : chipSamples 1000000000 = 1 := by
  have hlog1 : Int.log 2 |(1 / 1000000000 : ℚ)| = -30 := by
    apply intLog_two_eq
    · rw [abs_of_pos (by norm_num)]; norm_num
    · rw [abs_of_pos (by norm_num)]; norm_num
  have h1 : roundBinary64 (1 / 1000000000) = 4835703278458517 / 2 ^ 82 := by
    unfold roundBinary64
    rw [if_neg (by norm_num), hlog1]
    simp only []
    rw [roundHalfEven_up _ 4835703278458516 (by norm_num) (by norm_num)]
    norm_num
  have hlog2 : Int.log 2 |(4835703278458517 / 2 ^ 82 * 1000000000 : ℚ)| = 0 := by
    apply intLog_two_eq
    · rw [abs_of_pos (by norm_num)]; norm_num
    · rw [abs_of_pos (by norm_num)]; norm_num
  have h2 : roundBinary64 (4835703278458517 / 2 ^ 82 * 1000000000) = 1 := by
    unfold roundBinary64
    rw [if_neg (by norm_num), hlog2]
    simp only []
    rw [roundHalfEven_down _ 4503599627370496 (by norm_num) (by norm_num)]
    norm_num
  unfold chipSamples
  simp only []
  rw [h1, h2]
  exact Nat.floor_one

/-- Whenever the chip count is one, the two supported lengths give their
polarity tables, one sample `(p, 0)` per chip. -/
theorem generateBarkerCode_of_chipSamples_one (fs : ℚ) (h : chipSamples fs = 1) :
    generateBarkerCode 7 fs =
      [(⟨1, 0⟩ : ℂ), ⟨1, 0⟩, ⟨1, 0⟩, ⟨-1, 0⟩, ⟨-1, 0⟩, ⟨1, 0⟩, ⟨-1, 0⟩] ∧
    generateBarkerCode 13 fs =
      [(⟨1, 0⟩ : ℂ), ⟨1, 0⟩, ⟨1, 0⟩, ⟨1, 0⟩, ⟨1, 0⟩, ⟨-1, 0⟩, ⟨-1, 0⟩, ⟨1, 0⟩, ⟨1, 0⟩,
        ⟨-1, 0⟩, ⟨1, 0⟩, ⟨-1, 0⟩, ⟨1, 0⟩] := by
  constructor
  · simp [generateBarkerCode, barkerTable, h]
  · simp [generateBarkerCode, barkerTable, h]

/-- Any length other than 7 and 13 takes the early return, at every rate. -/
theorem generateBarkerCode_other (code_length : ℤ) (fs : ℚ)
    (h7 : code_length ≠ 7) (h13 : code_length ≠ 13) :
    generateBarkerCode code_length fs = [] := by
  simp [generateBarkerCode, barkerTable, h7, h13]

/-- C6 fails on the code: at `fs = 49` the binary64 product `(1.0 / fs) * fs` is
`1 - 2⁻⁵³`, the cast to `size_t` gives `0` samples per chip, and
`generateBarkerCode 7 49` and `generateBarkerCode 13 49` are empty instead of
holding 7 and 13 samples. -/
theorem generateBarkerCode_fs_49 :
    roundBinary64 (roundBinary64 (1 / 49) * 49) = 1 - 1 / 2 ^ 53 ∧
    chipSamples 49 = 0 ∧
    generateBarkerCode 7 49 = [] ∧
    generateBarkerCode 13 49 = [] := by
  refine ⟨?_, chipSamples_49, ?_, ?_⟩
  · rw [roundBinary64_chip_49]; norm_num
  · simp [generateBarkerCode, barkerTable, chipSamples_49]
  · simp [generateBarkerCode, barkerTable, chipSamples_49]

/-! ## Impairment injection -/

theorem addDraws_length (signal : List ℂ) (draw : ℕ → ℝ) :
    (addDraws signal draw).length = signal.length := by
  simp [addDraws]

/-- C9: for every signal, dB ratio and sequence of draws, `addNoise` and
`addClutter` keep the number of samples, and both return the empty signal on
the empty signal. -/
theorem addNoise_addClutter_length (signal : List ℂ) (ratio_db : ℝ) (draw : ℝ → ℕ → ℝ) :
    (addNoise signal ratio_db draw).length = signal.length ∧
    (addClutter signal ratio_db draw).length = signal.length ∧
    addNoise [] ratio_db draw = [] ∧
    addClutter [] ratio_db draw = [] := by
  refine ⟨addDraws_length _ _, addDraws_length _ _, ?_, ?_⟩
  · simp [addNoise, addDraws]
  · simp [addClutter, addDraws]


/-! ## Spectral transform: unfolding and length -/

section FftBasic

variable {K : Type} [CommRing K]

theorem evenPart_length (data : List K) : (evenPart data).length = data.length / 2 := by
  simp [evenPart]

theorem oddPart_length (data : List K) : (oddPart data).length = data.length / 2 := by
  simp [oddPart]

theorem fftWith_short (tw : ℕ → K) (data : List K) (h : data.length ≤ 1) :
    fftWith tw data = data := by
  rw [fftWith]; simp [h]

theorem fftWith_step (tw : ℕ → K) (data : List K) (h : ¬ data.length ≤ 1) :
    fftWith tw data =
      (butterfly (tw data.length) 1 (fftWith tw (evenPart data)) (fftWith tw (oddPart data))).1 ++
      (butterfly (tw data.length) 1 (fftWith tw (evenPart data)) (fftWith tw (oddPart data))).2 ++
      data.drop (2 * (data.length / 2)) := by
  rw [fftWith]; simp [h]

theorem butterfly_length (wn : K) (even odd : List K) (w : K) :
    (butterfly wn w even odd).1.length = min even.length odd.length ∧
    (butterfly wn w even odd).2.length = min even.length odd.length := by
  induction even generalizing odd w with
  | nil => simp [butterfly]
  | cons e even ih =>
    cases odd with
    | nil => simp [butterfly]
    | cons o odd =>
      simp only [butterfly, List.length_cons]
      have := ih odd (w * wn)
      omega

/-- The in-place transform never changes the number of samples. -/
theorem fftWith_length (tw : ℕ → K) (data : List K) :
    (fftWith tw data).length = data.length := by
  generalize hn : data.length = n
  induction n using Nat.strong_induction_on generalizing data with
  | _ n ih =>
    by_cases h : data.length ≤ 1
    · rw [fftWith_short tw data h, hn]
    · rw [fftWith_step tw data h]
      have he : (fftWith tw (evenPart data)).length = data.length / 2 :=
        ih (data.length / 2) (by omega) (evenPart data) (evenPart_length data)
      have ho : (fftWith tw (oddPart data)).length = data.length / 2 :=
        ih (data.length / 2) (by omega) (oddPart data) (oddPart_length data)
      have hb := butterfly_length (tw data.length) (fftWith tw (evenPart data))
        (fftWith tw (oddPart data)) 1
      simp only [List.length_append, List.length_drop, hb.1, hb.2, he, ho]
      omega

end FftBasic

theorem fft_length (data : List ℂ) (inverse : Bool) : (fft data inverse).length = data.length :=
  fftWith_length _ _

/-! ## Doppler estimator -/

theorem computeDoppler_length (signal : List ℂ) (f0 fs velocity : ℝ) :
    (computeDoppler signal f0 fs velocity).length = signal.length := by
  simp [computeDoppler, fft_length]

theorem computeDoppler_getElem? (signal : List ℂ) (f0 fs velocity : ℝ) (i : ℕ)
    (hi : i < signal.length) :
    (computeDoppler signal f0 fs velocity)[i]? =
      some (if |(i : ℝ) * fs / (signal.length : ℝ) - 2 * velocity * f0 / C|
                < fs / (signal.length : ℝ)
            then (fft signal false).getD i 0 else 0) := by
  have hi2 : i < (fft signal false).length := by rw [fft_length]; exact hi
  simp [computeDoppler, fft_length, List.getElem?_range hi]

theorem fft_one_zero : fft [1, 0] false = [1, 1] := by
  unfold fft
  rw [fftWith_step _ _ (by simp)]
  have he : evenPart ([1, 0] : List ℂ) = [1] := by simp [evenPart, List.range_succ]
  have ho : oddPart ([1, 0] : List ℂ) = [0] := by simp [oddPart, List.range_succ]
  rw [he, ho, fftWith_short _ [1] (by simp), fftWith_short _ [0] (by simp)]
  simp [butterfly]

/-- C10, as stated, fails on the boundary: for `signal = [1, 0]`, `fs = 2`,
`velocity = 0` the centre of bin `1` is exactly one bin width away from the
Doppler shift, the spectrum value there is `1`, and the code returns `0`. -/
theorem computeDoppler_boundary_counterexample :
    |((1 : ℕ) : ℝ) * 2 / (([1, 0] : List ℂ).length : ℝ) - 2 * 0 * 1 / C|
        ≤ 2 / (([1, 0] : List ℂ).length : ℝ) ∧
    (fft [1, 0] false)[1]? = some 1 ∧
    (computeDoppler [1, 0] 1 2 0)[1]? = some 0 := by
  refine ⟨by norm_num [C], by rw [fft_one_zero]; rfl, ?_⟩
  rw [computeDoppler_getElem? _ _ _ _ 1 (by simp)]
  norm_num [C]

/-- C10 (amended): for a signal of power-of-two length `N` and `fs > 0`,
`computeDoppler` returns `N` bins; bin `i` is zero when the bin centre
`i * fs / N` differs from `df = 2 * velocity * f0 / 3.0e8` by at least one bin
width `fs / N`, and equals bin `i` of the forward transform when it differs by
strictly less than one bin width. -/
theorem computeDoppler_spec (signal : List ℂ) (f0 fs velocity : ℝ) (k : ℕ)
    (_hlen : signal.length = 2 ^ k) (_hfs : 0 < fs) (i : ℕ) (hi : i < signal.length) :
    (computeDoppler signal f0 fs velocity).length = signal.length ∧
    (fs / (signal.length : ℝ)
        ≤ |(i : ℝ) * fs / (signal.length : ℝ) - 2 * velocity * f0 / 300000000| →
      (computeDoppler signal f0 fs velocity)[i]? = some 0) ∧
    (|(i : ℝ) * fs / (signal.length : ℝ) - 2 * velocity * f0 / 300000000|
        < fs / (signal.length : ℝ) →
      (computeDoppler signal f0 fs velocity)[i]? = (fft signal false)[i]?) := by
  have hi2 : i < (fft signal false).length := by rw [fft_length]; exact hi
  refine ⟨computeDoppler_length _ _ _ _, fun h => ?_, fun h => ?_⟩
  · rw [computeDoppler_getElem? _ _ _ _ i hi, if_neg (by unfold C; exact not_lt.mpr h)]
  · rw [computeDoppler_getElem? _ _ _ _ i hi, if_pos (by unfold C; exact h),
      List.getD_eq_getElem?_getD, List.getElem?_eq_getElem hi2, Option.getD_some]

theorem computeDoppler_spec_witness :
    (([1, 0] : List ℂ).length = 2 ^ 1) ∧ ((0 : ℝ) < 2) ∧ (1 < ([1, 0] : List ℂ).length) ∧
    ((computeDoppler [1, 0] 1 2 0).length = ([1, 0] : List ℂ).length ∧
    (2 / (([1, 0] : List ℂ).length : ℝ)
        ≤ |((1 : ℕ) : ℝ) * 2 / (([1, 0] : List ℂ).length : ℝ) - 2 * 0 * 1 / 300000000| →
      (computeDoppler [1, 0] 1 2 0)[1]? = some 0) ∧
    (|((1 : ℕ) : ℝ) * 2 / (([1, 0] : List ℂ).length : ℝ) - 2 * 0 * 1 / 300000000|
        < 2 / (([1, 0] : List ℂ).length : ℝ) →
      (computeDoppler [1, 0] 1 2 0)[1]? = (fft [1, 0] false)[1]?)) :=
  ⟨by simp, by norm_num, by simp,
    computeDoppler_spec [1, 0] 1 2 0 1 (by simp) (by norm_num) 1 (by simp)⟩


/-! ## CFAR detector -/

theorem sizeAdd_eq (a b : ℕ) (h : a + b < 2 ^ 64) : sizeAdd a b = a + b := by
  unfold sizeAdd sizeMod; exact Nat.mod_eq_of_lt h

theorem sizeSub_eq (a b : ℕ) (hb : b ≤ a) (ha : a < 2 ^ 64) : sizeSub a b = a - b := by
  unfold sizeSub sizeMod
  have hb2 : b % 2 ^ 64 = b := Nat.mod_eq_of_lt (by omega)
  rw [hb2]
  have h : a + (2 ^ 64 - b) = (a - b) + 2 ^ 64 := by omega
  rw [h, Nat.add_mod_right]
  exact Nat.mod_eq_of_lt (by omega)

section CfarGeneric

variable {K R : Type} [LinearOrderedField R] [Zero K]

/-- A training-window loop that stays inside the signal adds the powers of
the cells `lo, ..., lo + n - 1` and advances the count by `n`. -/
theorem forLoop_trainingBody (norm : K → R) (signal : List K) (n lo : ℕ) (acc : R × ℕ)
    (h : lo + n ≤ signal.length) :
    forLoop (trainingBody norm signal) n lo acc =
      Except.ok (acc.1 + ∑ j ∈ Finset.Ico lo (lo + n), norm (signal.getD j 0), acc.2 + n) := by
  induction n generalizing lo acc with
  | zero => simp [forLoop]
  | succ n ih =>
    have hlo : lo < signal.length := by omega
    have hread : signal[lo]? = some (signal.getD lo 0) := by
      rw [List.getD_eq_getElem?_getD, List.getElem?_eq_getElem hlo, Option.getD_some]
    rw [forLoop]
    simp only [trainingBody, hread]
    rw [ih (lo + 1) _ (by omega), Finset.sum_eq_sum_Ico_succ_bot (by omega : lo < lo + (n + 1))]
    have hs : lo + 1 + n = lo + (n + 1) := by omega
    rw [hs, add_assoc, Nat.add_assoc, Nat.add_comm 1 n]

open Classical in
theorem cfarStep_valid (norm : K → R) (alpha : R) (signal : List K) (g t : ℕ)
    (det : List ℕ) (i : ℕ) (hlo : g + t ≤ i) (hhi : i + g + t < signal.length)
    (hsz : signal.length < 2 ^ 64) :
    cfarStep norm alpha signal g t det i =
      Except.ok (if cfarTest norm alpha signal g t i then det ++ [i] else det) := by
  have e1 : sizeSub i g = i - g := sizeSub_eq i g (by omega) (by omega)
  have e2 : sizeSub (i - g) t = i - g - t := sizeSub_eq (i - g) t (by omega) (by omega)
  have e3 : sizeAdd i g = i + g := sizeAdd_eq i g (by omega)
  have e4 : sizeAdd (i + g) 1 = i + g + 1 := sizeAdd_eq (i + g) 1 (by omega)
  have e5 : sizeAdd (i + g) t = i + g + t := sizeAdd_eq (i + g) t (by omega)
  have c0 : i - g - (i - g - t) = t := by omega
  have c1 : i + g + t + 1 - (i + g + 1) = t := by omega
  have hread : signal[i]? = some (signal.getD i 0) := by
    rw [List.getD_eq_getElem?_getD, List.getElem?_eq_getElem (by omega), Option.getD_some]
  unfold cfarStep
  simp only [e1, e2, e3, e4, e5, c0, c1]
  rw [forLoop_trainingBody norm signal t (i - g - t) (0, 0) (by omega)]
  simp only []
  rw [forLoop_trainingBody norm signal t (i + g + 1) _ (by omega)]
  simp only [hread]
  have hidx : i - g - t + t = i - g := by omega
  rw [hidx]
  by_cases hP : cfarTest norm alpha signal g t i
  · rw [if_pos hP, if_pos (by unfold cfarTest at hP; exact hP)]
  · rw [if_neg hP, if_neg (by unfold cfarTest at hP; exact hP)]

open Classical in
/-- A scan whose indices all have full windows returns the tested indices
that pass, in scan order. -/
theorem forLoop_cfarStep (norm : K → R) (alpha : R) (signal : List K) (g t : ℕ)
    (hsz : signal.length < 2 ^ 64) (n start : ℕ) (det : List ℕ)
    (hlo : g + t ≤ start) (hhi : n = 0 ∨ start + n + g + t ≤ signal.length) :
    forLoop (cfarStep norm alpha signal g t) n start det =
      Except.ok (det ++ (List.range' start n).filter
        (fun i => decide (cfarTest norm alpha signal g t i))) := by
  induction n generalizing start det with
  | zero => simp [forLoop]
  | succ n ih =>
    have hhi2 : start + (n + 1) + g + t ≤ signal.length := by omega
    rw [forLoop, cfarStep_valid norm alpha signal g t det start hlo (by omega) hsz]
    simp only []
    rw [ih (start + 1) _ (by omega) (by omega), List.range'_succ, List.filter_cons]
    by_cases hP : cfarTest norm alpha signal g t start
    · simp [hP]
    · simp [hP]

end CfarGeneric

theorem cfarTest_iff (signal : List ℂ) (g t : ℕ) (alpha : ℝ) (i : ℕ) :
    cfarTest Complex.normSq alpha signal g t i ↔
      Complex.abs (signal.getD i 0) ^ 2 > alpha * trainingMean signal g t i := by
  unfold cfarTest trainingMean
  have hI : Finset.Ico (i + g + 1) (i + g + 1 + t) = Finset.Icc (i + g + 1) (i + g + t) := by
    ext j; simp only [Finset.mem_Ico, Finset.mem_Icc]; omega
  have hc : ((t + t : ℕ) : ℝ) = 2 * (t : ℝ) := by push_cast; ring
  simp only [Complex.sq_abs, hI, zero_add, hc]
  rw [mul_comm alpha]

open Classical in
/-- C3: for `g + t ≤ len` (with `t ≥ 1`, `pfa` in `(0,1)`, and `len` a `size_t`
value), `cfarDetection` returns exactly the ascending, duplicate-free list of the
indices `i` with `g + t ≤ i < len - g - t` and
`|signal[i]|² > α * m_i`, where `α = pfa ^ (-1/t) - 1` and `m_i` is the mean
power over the `2t` training cells around `i`. -/
theorem cfarDetection_spec (signal : List ℂ) (g t : ℕ) (pfa : ℝ)
    (_ht : 1 ≤ t) (_hpfa0 : 0 < pfa) (_hpfa1 : pfa < 1)
    (hgt : g + t ≤ signal.length) (hsz : signal.length < 2 ^ 64) :
    ∃ l : List ℕ, cfarDetection signal g t pfa = Except.ok l ∧
      l.Sorted (· < ·) ∧ l.Nodup ∧
      ∀ i, i ∈ l ↔ (g + t ≤ i ∧ i < signal.length - g - t ∧
        Complex.abs (signal.getD i 0) ^ 2 >
          (pfa ^ (-1 / (t : ℝ)) - 1) * trainingMean signal g t i) := by
  have e0 : sizeAdd g t = g + t := sizeAdd_eq g t (by omega)
  have e1 : sizeSub signal.length g = signal.length - g :=
    sizeSub_eq signal.length g (by omega) hsz
  have e2 : sizeSub (signal.length - g) t = signal.length - g - t :=
    sizeSub_eq (signal.length - g) t (by omega) (by omega)
  have hrun : cfarDetection signal g t pfa =
      Except.ok ((List.range' (g + t) (signal.length - g - t - (g + t))).filter
        (fun i => decide (cfarTest Complex.normSq (pfa ^ (-1 / (t : ℝ)) - 1) signal g t i))) := by
    unfold cfarDetection cfarScan
    simp only [e0, e1, e2]
    rw [forLoop_cfarStep Complex.normSq _ signal g t hsz _ (g + t) [] le_rfl (by omega)]
    simp
  refine ⟨_, hrun, ?_, ?_, ?_⟩
  · exact (List.pairwise_lt_range' (g + t) _).filter _
  · exact ((List.pairwise_lt_range' (g + t) _).filter _).imp (fun h => ne_of_lt h)
  · intro i
    simp only [List.mem_filter, List.mem_range'_1, decide_eq_true_eq, cfarTest_iff]
    constructor
    · rintro ⟨⟨h1, h2⟩, h3⟩
      exact ⟨h1, by omega, h3⟩
    · rintro ⟨h1, h2, h3⟩
      exact ⟨⟨h1, by omega⟩, h3⟩

theorem cfarDetection_spec_witness :
    (1 ≤ 1) ∧ ((0 : ℝ) < 1 / 2) ∧ ((1 / 2 : ℝ) < 1) ∧
    (1 + 1 ≤ ([1, 1, 3, 1, 1] : List ℂ).length) ∧
    (([1, 1, 3, 1, 1] : List ℂ).length < 2 ^ 64) ∧
    ∃ l : List ℕ, cfarDetection [1, 1, 3, 1, 1] 1 1 (1 / 2) = Except.ok l ∧
      l.Sorted (· < ·) ∧ l.Nodup ∧
      ∀ i, i ∈ l ↔ (1 + 1 ≤ i ∧ i < ([1, 1, 3, 1, 1] : List ℂ).length - 1 - 1 ∧
        Complex.abs (([1, 1, 3, 1, 1] : List ℂ).getD i 0) ^ 2 >
          ((1 / 2 : ℝ) ^ (-1 / ((1 : ℕ) : ℝ)) - 1) * trainingMean [1, 1, 3, 1, 1] 1 1 i) :=
  ⟨le_refl 1, by norm_num, by norm_num, by simp, by simp,
    cfarDetection_spec [1, 1, 3, 1, 1] 1 1 (1 / 2) (le_refl 1) (by norm_num) (by norm_num)
      (by simp) (by simp)⟩

/-- C4 fails on the code: for a signal of 10 samples with `guard_cells = 5`
and `training_cells = 10` the loop bound `10 - 5 - 10` wraps to `2^64 - 5`,
index `15` is tested, and the trailing window reads `signal[21]`, past the end;
the run does not return the empty detection set. -/
theorem cfarDetection_short_signal (pfa : ℝ) :
    sizeSub (sizeSub (List.replicate 10 (1 : ℂ)).length 5) 10 = 2 ^ 64 - 5 ∧
    cfarDetection (List.replicate 10 1) 5 10 pfa = Except.error 21 ∧
    cfarDetection (List.replicate 10 1) 5 10 pfa ≠ Except.ok [] := by
  have h : cfarDetection (List.replicate 10 1) 5 10 pfa = Except.error 21 := rfl
  refine ⟨by decide, h, ?_⟩
  rw [h]
  intro hne
  cases hne


/-! ## Spectral transform: the recursion computes the discrete Fourier transform -/

section FftDft

variable {K : Type} [CommRing K]

/-- Values written by the recombination loop, by position. -/
theorem butterfly_getElem? (wn : K) (even odd : List K) (w : K) (i : ℕ)
    (hlen : even.length = odd.length) (hi : i < even.length) :
    (butterfly wn w even odd).1[i]? = some (even.getD i 0 + w * wn ^ i * odd.getD i 0) ∧
    (butterfly wn w even odd).2[i]? = some (even.getD i 0 - w * wn ^ i * odd.getD i 0) := by
  induction even generalizing odd w i with
  | nil => simp at hi
  | cons e even ih =>
    cases odd with
    | nil => simp at hlen
    | cons o odd =>
      cases i with
      | zero => simp [butterfly]
      | succ i =>
        have hlen2 : even.length = odd.length := by simpa using hlen
        have hi2 : i < even.length := by simpa using hi
        have h := ih odd (w * wn) i hlen2 hi2
        simp only [butterfly, List.getElem?_cons_succ, List.getD_cons_succ, h.1, h.2]
        constructor
        · congr 2; ring
        · congr 2; ring

theorem sum_range_two_mul_split {M : Type} [AddCommMonoid M] (f : ℕ → M) (h : ℕ) :
    ∑ m ∈ Finset.range (2 * h), f m =
      ∑ m ∈ Finset.range h, f (2 * m) + ∑ m ∈ Finset.range h, f (2 * m + 1) := by
  induction h with
  | zero => simp
  | succ h ih =>
    rw [show 2 * (h + 1) = 2 * h + 1 + 1 by ring, Finset.sum_range_succ, Finset.sum_range_succ,
      ih, Finset.sum_range_succ, Finset.sum_range_succ]
    abel

theorem evenPart_getD (data : List K) (m : ℕ) (hm : m < data.length / 2) :
    (evenPart data).getD m 0 = data.getD (2 * m) 0 := by
  simp [evenPart, List.getD_eq_getElem?_getD, List.getElem?_range hm, mul_comm]

theorem oddPart_getD (data : List K) (m : ℕ) (hm : m < data.length / 2) :
    (oddPart data).getD m 0 = data.getD (2 * m + 1) 0 := by
  simp [oddPart, List.getD_eq_getElem?_getD, List.getElem?_range hm, mul_comm]

theorem naiveDft_length (ω : K) (x : List K) : (naiveDft ω x).length = x.length := by
  simp [naiveDft]

theorem naiveDft_getElem? (ω : K) (x : List K) (k : ℕ) (hk : k < x.length) :
    (naiveDft ω x)[k]? = some (∑ m ∈ Finset.range x.length, x.getD m 0 * ω ^ (k * m)) := by
  simp [naiveDft, List.getElem?_range hk]

theorem naiveDft_getD (ω : K) (x : List K) (k : ℕ) (hk : k < x.length) :
    (naiveDft ω x).getD k 0 = ∑ m ∈ Finset.range x.length, x.getD m 0 * ω ^ (k * m) := by
  rw [List.getD_eq_getElem?_getD, naiveDft_getElem? ω x k hk, Option.getD_some]

/-- The radix-2 recursion equals the naive transform on power-of-two lengths,
for any family of twiddles with `tw (2n) ^ 2 = tw n` and `tw (2n) ^ n = -1`. -/
theorem fftWith_eq_naiveDft (tw : ℕ → K)
    (hsq : ∀ n, 0 < n → tw (2 * n) ^ 2 = tw n)
    (hneg : ∀ n, 0 < n → tw (2 * n) ^ n = -1)
    (k : ℕ) (data : List K) (hlen : data.length = 2 ^ k) :
    fftWith tw data = naiveDft (tw (2 ^ k)) data := by
  induction k generalizing data with
  | zero =>
    rw [fftWith_short tw data (by rw [hlen]; simp)]
    match data, hlen with
    | [x], _ => simp [naiveDft]
  | succ k ih =>
    have hpos : 0 < 2 ^ k := Nat.two_pow_pos k
    have hN : data.length = 2 * 2 ^ k := by rw [hlen, pow_succ]; ring
    have hhalf : data.length / 2 = 2 ^ k := by omega
    have hEl : (evenPart data).length = 2 ^ k := by rw [evenPart_length, hhalf]
    have hOl : (oddPart data).length = 2 ^ k := by rw [oddPart_length, hhalf]
    have hω : tw (2 ^ (k + 1)) = tw (2 * 2 ^ k) := by rw [pow_succ, mul_comm]
    set ω := tw (2 * 2 ^ k) with hωdef
    have hω2 : ω ^ 2 = tw (2 ^ k) := hsq _ hpos
    have hωh : ω ^ (2 ^ k) = -1 := hneg _ hpos
    rw [fftWith_step tw data (by omega), ih _ hEl, ih _ hOl, hN, hω, ← hωdef]
    have hdrop : List.drop (2 * (2 * 2 ^ k / 2)) data = [] := by
      apply List.drop_eq_nil_of_le; omega
    rw [hdrop, List.append_nil]
    set E := naiveDft (tw (2 ^ k)) (evenPart data) with hE
    set O := naiveDft (tw (2 ^ k)) (oddPart data) with hO
    have hElen : E.length = 2 ^ k := by rw [hE, naiveDft_length, hEl]
    have hOlen : O.length = 2 ^ k := by rw [hO, naiveDft_length, hOl]
    have hbl := butterfly_length ω E O 1
    -- the two halves of the transform, in terms of the half-size transforms
    have hEval : ∀ i, i < 2 ^ k →
        E.getD i 0 = ∑ m ∈ Finset.range (2 ^ k), data.getD (2 * m) 0 * ω ^ (2 * (i * m)) := by
      intro i hi
      rw [hE, naiveDft_getD _ _ i (by rw [hEl]; exact hi), hEl]
      refine Finset.sum_congr rfl (fun m hm => ?_)
      rw [evenPart_getD data m (by rw [hhalf]; exact Finset.mem_range.mp hm), ← hω2, ← pow_mul]
    have hOval : ∀ i, i < 2 ^ k →
        O.getD i 0 = ∑ m ∈ Finset.range (2 ^ k), data.getD (2 * m + 1) 0 * ω ^ (2 * (i * m)) := by
      intro i hi
      rw [hO, naiveDft_getD _ _ i (by rw [hOl]; exact hi), hOl]
      refine Finset.sum_congr rfl (fun m hm => ?_)
      rw [oddPart_getD data m (by rw [hhalf]; exact Finset.mem_range.mp hm), ← hω2, ← pow_mul]
    have hω2h : ∀ m : ℕ, ω ^ (2 * (2 ^ k * m)) = 1 := by
      intro m
      rw [show 2 * (2 ^ k * m) = 2 ^ k * (2 * m) by ring, pow_mul, hωh, pow_mul]
      simp
    apply List.ext_getElem?
    intro i
    by_cases hi : i < 2 * 2 ^ k
    · rw [naiveDft_getElem? ω data i (by rw [hN]; exact hi), hN, sum_range_two_mul_split]
      by_cases hi1 : i < 2 ^ k
      · rw [List.getElem?_append_left (by rw [hbl.1, hElen, hOlen]; simpa using hi1),
          (butterfly_getElem? ω E O 1 i (by rw [hElen, hOlen]) (by rw [hElen]; exact hi1)).1,
          hEval i hi1, hOval i hi1, one_mul, Finset.mul_sum]
        congr 2
        · refine Finset.sum_congr rfl (fun m _ => ?_)
          rw [show i * (2 * m) = 2 * (i * m) by ring]
        · refine Finset.sum_congr rfl (fun m _ => ?_)
          rw [show i * (2 * m + 1) = i + 2 * (i * m) by ring, pow_add]
          ring
      · have hi2 : i - 2 ^ k < 2 ^ k := by omega
        have hsplit : i = (i - 2 ^ k) + 2 ^ k := by omega
        rw [List.getElem?_append_right (by rw [hbl.1, hElen, hOlen]; simpa using (by omega)),
          hbl.1, hElen, hOlen, min_self,
          (butterfly_getElem? ω E O 1 (i - 2 ^ k) (by rw [hElen, hOlen])
            (by rw [hElen]; exact hi2)).2,
          hEval _ hi2, hOval _ hi2, one_mul, Finset.mul_sum, sub_eq_add_neg,
          ← Finset.sum_neg_distrib]
        congr 2
        · refine Finset.sum_congr rfl (fun m _ => ?_)
          conv_rhs => rw [hsplit]
          rw [show ((i - 2 ^ k) + 2 ^ k) * (2 * m) = 2 * ((i - 2 ^ k) * m) + 2 * (2 ^ k * m) by ring,
            pow_add, hω2h, mul_one]
        · refine Finset.sum_congr rfl (fun m _ => ?_)
          conv_rhs => rw [hsplit]
          rw [show ((i - 2 ^ k) + 2 ^ k) * (2 * m + 1)
              = (i - 2 ^ k) + 2 * ((i - 2 ^ k) * m) + 2 * (2 ^ k * m) + 2 ^ k by ring,
            pow_add, pow_add, pow_add, hω2h, hωh]
          ring
    · rw [List.getElem?_eq_none (by
          rw [List.length_append, hbl.1, hbl.2, hElen, hOlen, min_self]; omega),
        List.getElem?_eq_none (by rw [naiveDft_length, hN]; omega)]

end FftDft


/-! ## Spectral transform over `ℂ`: twiddle factors and the round trip -/

theorem twiddle_eq_exp (inverse : Bool) (n : ℕ) :
    twiddle inverse n =
      Complex.exp (((2 * Real.pi / (n : ℝ) * (if inverse then -1 else 1) : ℝ) : ℂ) * Complex.I) := by
  unfold twiddle PI
  apply Complex.ext
  · rw [Complex.exp_ofReal_mul_I_re]
  · rw [Complex.exp_ofReal_mul_I_im]

theorem twiddle_sq (inverse : Bool) (n : ℕ) (hn : 0 < n) :
    twiddle inverse (2 * n) ^ 2 = twiddle inverse n := by
  have hn0 : (n : ℝ) ≠ 0 := by exact_mod_cast (Nat.pos_iff_ne_zero.mp hn)
  rw [twiddle_eq_exp, twiddle_eq_exp, ← Complex.exp_nat_mul]
  congr 1
  rw [← mul_assoc]
  congr 1
  have h : ((2 : ℕ) : ℝ) * (2 * Real.pi / ((2 * n : ℕ) : ℝ) * (if inverse then -1 else 1))
      = 2 * Real.pi / (n : ℝ) * (if inverse then -1 else 1) := by
    push_cast; field_simp; ring_nf
  exact_mod_cast congrArg (fun r : ℝ => (r : ℂ)) h

theorem twiddle_pow_half (inverse : Bool) (n : ℕ) (hn : 0 < n) :
    twiddle inverse (2 * n) ^ n = -1 := by
  have hn0 : (n : ℝ) ≠ 0 := by exact_mod_cast (Nat.pos_iff_ne_zero.mp hn)
  rw [twiddle_eq_exp, ← Complex.exp_nat_mul, ← mul_assoc]
  have h : ((n : ℕ) : ℝ) * (2 * Real.pi / ((2 * n : ℕ) : ℝ) * (if inverse then -1 else 1))
      = Real.pi * (if inverse then -1 else 1) := by
    push_cast; field_simp; ring_nf
  have h2 : ((n : ℕ) : ℂ) * ((2 * Real.pi / ((2 * n : ℕ) : ℝ) * (if inverse then -1 else 1) : ℝ) : ℂ)
      = ((Real.pi * (if inverse then -1 else 1) : ℝ) : ℂ) := by
    exact_mod_cast congrArg (fun r : ℝ => (r : ℂ)) h
  rw [h2]
  cases inverse
  · simp [Complex.exp_pi_mul_I]
  · simp only [if_true, mul_neg, mul_one, Complex.ofReal_neg, neg_mul, Complex.exp_neg,
      Complex.exp_pi_mul_I]
    norm_num

theorem twiddle_mul_inverse (n : ℕ) : twiddle false n * twiddle true n = 1 := by
  rw [twiddle_eq_exp, twiddle_eq_exp, ← Complex.exp_add]
  simp

theorem twiddle_primitive (n : ℕ) (hn : n ≠ 0) : IsPrimitiveRoot (twiddle false n) n := by
  have h := Complex.isPrimitiveRoot_exp n hn
  have he : twiddle false n = Complex.exp (2 * Real.pi * Complex.I / n) := by
    rw [twiddle_eq_exp]
    congr 1
    push_cast
    simp only [Bool.false_eq_true, if_false, mul_one]
    ring
  rw [he]; exact h

/-- On a power-of-two length the code's transform is the naive transform with
root `twiddle inverse N`. -/
theorem fft_eq_naiveDft (x : List ℂ) (inverse : Bool) (k : ℕ) (hlen : x.length = 2 ^ k) :
    fft x inverse = naiveDft (twiddle inverse (2 ^ k)) x :=
  fftWith_eq_naiveDft (twiddle inverse) (twiddle_sq inverse) (twiddle_pow_half inverse) k x hlen

/-- Orthogonality of the forward and inverse twiddles. -/
theorem twiddle_orthogonal (N : ℕ) (hN : N ≠ 0) (m j : ℕ) (hm : m < N) (hj : j < N) :
    ∑ k ∈ Finset.range N, twiddle false N ^ (k * m) * twiddle true N ^ (j * k)
      = if m = j then (N : ℂ) else 0 := by
  set ω := twiddle false N
  set ω' := twiddle true N
  have hinv : ω * ω' = 1 := twiddle_mul_inverse N
  have hprim : IsPrimitiveRoot ω N := twiddle_primitive N hN
  have hterm : ∀ k, ω ^ (k * m) * ω' ^ (j * k) = (ω ^ m * ω' ^ j) ^ k := by
    intro k
    rw [mul_pow, ← pow_mul, ← pow_mul, mul_comm k m]
  simp only [hterm]
  split_ifs with hmj
  · subst hmj
    rw [← mul_pow, hinv, one_pow]
    simp
  · have hne : ω ^ m * ω' ^ j ≠ 1 := by
      intro h1
      apply hmj
      apply hprim.pow_inj hm hj
      calc ω ^ m = ω ^ m * (ω' * ω) ^ j := by rw [mul_comm ω' ω, hinv, one_pow, mul_one]
        _ = (ω ^ m * ω' ^ j) * ω ^ j := by rw [mul_pow]; ring
        _ = ω ^ j := by rw [h1, one_mul]
    have hpow : (ω ^ m * ω' ^ j) ^ N = 1 := by
      have h1 : ω ^ N = 1 := hprim.pow_eq_one
      have h2 : ω' ^ N = 1 := by
        have : (ω * ω') ^ N = 1 := by rw [hinv, one_pow]
        rwa [mul_pow, h1, one_mul] at this
      rw [mul_pow, ← pow_mul, ← pow_mul, mul_comm m N, mul_comm j N, pow_mul, pow_mul, h1, h2]
      simp
    have hg := mul_geom_sum (ω ^ m * ω' ^ j) N
    rw [hpow, sub_self] at hg
    rcases mul_eq_zero.mp hg with h0 | h0
    · exact absurd (sub_eq_zero.mp h0) hne
    · exact h0

/-- The unnormalised inverse transform of the forward transform is `N * x`. -/
theorem fft_inverse_fft (x : List ℂ) (k : ℕ) (hlen : x.length = 2 ^ k) :
    fft (fft x false) true = x.map (fun z => (x.length : ℂ) * z) := by
  have hN : (2 : ℕ) ^ k ≠ 0 := (Nat.two_pow_pos k).ne'
  have hXlen : (naiveDft (twiddle false (2 ^ k)) x).length = 2 ^ k := by
    rw [naiveDft_length, hlen]
  rw [fft_eq_naiveDft x false k hlen, fft_eq_naiveDft _ true k hXlen]
  apply List.ext_getElem?
  intro j
  by_cases hj : j < 2 ^ k
  · rw [naiveDft_getElem? _ _ j (by rw [hXlen]; exact hj), hXlen, List.getElem?_map,
      List.getElem?_eq_getElem (by rw [hlen]; exact hj), Option.map_some']
    congr 1
    have hinner : ∀ i ∈ Finset.range (2 ^ k),
        (naiveDft (twiddle false (2 ^ k)) x).getD i 0 * twiddle true (2 ^ k) ^ (j * i)
          = ∑ m ∈ Finset.range (2 ^ k),
              x.getD m 0 * (twiddle false (2 ^ k) ^ (i * m) * twiddle true (2 ^ k) ^ (j * i)) := by
      intro i hi
      rw [naiveDft_getD _ _ i (by rw [hlen]; exact Finset.mem_range.mp hi), hlen, Finset.sum_mul]
      exact Finset.sum_congr rfl (fun m _ => by ring)
    rw [Finset.sum_congr rfl hinner, Finset.sum_comm]
    have houter : ∀ m ∈ Finset.range (2 ^ k),
        ∑ i ∈ Finset.range (2 ^ k),
            x.getD m 0 * (twiddle false (2 ^ k) ^ (i * m) * twiddle true (2 ^ k) ^ (j * i))
          = if m = j then ((2 ^ k : ℕ) : ℂ) * x.getD m 0 else 0 := by
      intro m hm
      rw [← Finset.mul_sum, twiddle_orthogonal (2 ^ k) hN m j (Finset.mem_range.mp hm) hj]
      split_ifs <;> ring
    have hget : x.getD j 0 = x[j] := by
      rw [List.getD_eq_getElem?_getD, List.getElem?_eq_getElem, Option.getD_some]
    rw [Finset.sum_congr rfl houter, Finset.sum_ite_eq' (Finset.range (2 ^ k)) j,
      if_pos (Finset.mem_range.mpr hj), hget]
    congr 1
    exact_mod_cast congrArg (fun n : ℕ => (n : ℂ)) hlen.symm
  · rw [List.getElem?_eq_none (by rw [naiveDft_length, hXlen]; omega),
      List.getElem?_eq_none (by rw [List.length_map, hlen]; omega)]

/-- C2: for a signal `x` of power-of-two length `N`, the forward transform
followed by the inverse transform and division of every element by `N` gives `x`
back; equivalently the inverse transform of the forward transform is `N * x`. -/
theorem fft_roundtrip (x : List ℂ) (k : ℕ) (hlen : x.length = 2 ^ k) :
    (fft (fft x false) true).map (fun z => z / (x.length : ℂ)) = x ∧
    fft (fft x false) true = x.map (fun z => (x.length : ℂ) * z) := by
  refine ⟨?_, fft_inverse_fft x k hlen⟩
  have hN : (x.length : ℂ) ≠ 0 := by
    rw [hlen]; exact_mod_cast (Nat.two_pow_pos k).ne'
  rw [fft_inverse_fft x k hlen, List.map_map]
  conv_rhs => rw [← List.map_id x]
  apply List.map_congr_left
  intro z _
  simp only [Function.comp_apply, id]
  field_simp

theorem fft_roundtrip_witness :
    (([1, 2, Complex.I, 0] : List ℂ).length = 2 ^ 2) ∧
    ((fft (fft [1, 2, Complex.I, 0] false) true).map
        (fun z => z / (([1, 2, Complex.I, 0] : List ℂ).length : ℂ)) = [1, 2, Complex.I, 0] ∧
    fft (fft [1, 2, Complex.I, 0] false) true =
      ([1, 2, Complex.I, 0] : List ℂ).map
        (fun z => (([1, 2, Complex.I, 0] : List ℂ).length : ℂ) * z)) :=
  ⟨by simp, fft_roundtrip [1, 2, Complex.I, 0] 2 (by simp)⟩


/-! ## End-to-end scenario: the reference chirp matched against itself -/

theorem mk_cos_sin_eq_exp (x : ℝ) :
    (⟨Real.cos x, Real.sin x⟩ : ℂ) = Complex.exp ((x : ℂ) * Complex.I) := by
  apply Complex.ext
  · rw [Complex.exp_ofReal_mul_I_re]
  · rw [Complex.exp_ofReal_mul_I_im]

theorem referenceChirp_length :
    (generateChirp 1000000000 100000000 (1 / 1000000) 1000000000).length = 1000 := by
  rw [generateChirp_length]
  rw [show (1 / 1000000 : ℝ) * 1000000000 = ((1000 : ℕ) : ℝ) by norm_num, Nat.floor_natCast]

/-- Sample `n` of the reference chirp is `exp (i (π / 10000) n²)`: the carrier
term `f0 * t = n` contributes whole turns only. -/
theorem referenceChirp_getD (n : ℕ) (hn : n < 1000) :
    (generateChirp 1000000000 100000000 (1 / 1000000) 1000000000).getD n 0 =
      Complex.exp (((Real.pi / 10000 * (n : ℝ) ^ 2 : ℝ) : ℂ) * Complex.I) := by
  have hfl : ⌊(1 / 1000000 : ℝ) * 1000000000⌋₊ = 1000 := by
    rw [show (1 / 1000000 : ℝ) * 1000000000 = ((1000 : ℕ) : ℝ) by norm_num, Nat.floor_natCast]
  rw [List.getD_eq_getElem?_getD,
    generateChirp_getElem? _ _ _ _ n (by rw [hfl]; exact hn), Option.getD_some,
    ← mk_cos_sin_eq_exp]
  have hphase : 2 * PI * (1000000000 * ((n : ℝ) * (1 / 1000000000))
        + 0.5 * (100000000 / (1 / 1000000)) * ((n : ℝ) * (1 / 1000000000))
          * ((n : ℝ) * (1 / 1000000000)))
      = Real.pi / 10000 * (n : ℝ) ^ 2 + (n : ℝ) * (2 * Real.pi) := by
    unfold PI; norm_num; ring
  rw [hphase, Real.cos_add_nat_mul_two_pi, Real.sin_add_nat_mul_two_pi]

/-- Output cell `i` of the self-matched reference chirp as a geometric sum. -/
theorem referenceChirp_cell (i : ℕ) (hi : i < 1000) :
    (matchedFilter (generateChirp 1000000000 100000000 (1 / 1000000) 1000000000)
        (generateChirp 1000000000 100000000 (1 / 1000000) 1000000000)).getD i 0 =
      Complex.exp (((Real.pi / 10000 * (i : ℝ) ^ 2 : ℝ) : ℂ) * Complex.I) *
        ∑ j ∈ Finset.range (i + 1),
          Complex.exp (((-(Real.pi / 10000 * (2 * (i : ℝ))) : ℝ) : ℂ) * Complex.I) ^ j := by
  rw [List.getD_eq_getElem?_getD,
    matchedFilter_getElem? _ _ i (by rw [referenceChirp_length]; exact hi), Option.getD_some,
    matchedFilterCell_eq, referenceChirp_length,
    show min (i + 1) 1000 = i + 1 by omega, Finset.mul_sum]
  refine Finset.sum_congr rfl (fun j hj => ?_)
  have hj1 : j ≤ i := Nat.lt_succ_iff.mp (Finset.mem_range.mp hj)
  rw [referenceChirp_getD (i - j) (by omega), referenceChirp_getD j (by omega)]
  have hstar : star (Complex.exp (((Real.pi / 10000 * (j : ℝ) ^ 2 : ℝ) : ℂ) * Complex.I))
      = Complex.exp (((-(Real.pi / 10000 * (j : ℝ) ^ 2) : ℝ) : ℂ) * Complex.I) := by
    rw [Complex.star_def, ← Complex.exp_conj, map_mul, Complex.conj_ofReal, Complex.conj_I]
    congr 1
    push_cast
    ring
  rw [hstar, ← Complex.exp_nat_mul, ← Complex.exp_add, ← Complex.exp_add]
  congr 1
  rw [Nat.cast_sub hj1]
  push_cast
  ring


theorem exp_ofReal_mul_I_pow (x : ℝ) (j : ℕ) :
    Complex.exp ((x : ℂ) * Complex.I) ^ j = Complex.exp ((((j : ℝ) * x : ℝ) : ℂ) * Complex.I) := by
  rw [← Complex.exp_nat_mul]
  congr 1
  push_cast
  ring

/-- A geometric sum of unit-modulus terms is bounded by `2 / |1 - r|`. -/
theorem abs_geom_sum_le (r : ℂ) (n : ℕ) (c : ℝ) (hr : Complex.abs r = 1) (hc : 0 < c)
    (h : c ≤ Complex.abs (1 - r)) :
    Complex.abs (∑ j ∈ Finset.range n, r ^ j) ≤ 2 / c := by
  have hgeom := mul_neg_geom_sum r n
  have habs2 : Complex.abs (1 - r) * Complex.abs (∑ j ∈ Finset.range n, r ^ j) ≤ 2 := by
    rw [← map_mul, hgeom]
    calc Complex.abs (1 - r ^ n)
        ≤ Complex.abs 1 + Complex.abs (r ^ n) := by
          simpa [sub_eq_add_neg] using Complex.abs.add_le 1 (-(r ^ n))
      _ = 2 := by rw [map_pow, hr]; norm_num
  have hS : 0 ≤ Complex.abs (∑ j ∈ Finset.range n, r ^ j) := Complex.abs.nonneg _
  rw [le_div_iff₀ hc]
  nlinarith

/-- Magnitude of the last output cell: the geometric sum of 1000 unit terms with
ratio `exp (-i 0.1998 π)` nearly cancels. -/
theorem referenceChirp_abs_last_lt :
    Complex.abs ((matchedFilter (generateChirp 1000000000 100000000 (1 / 1000000) 1000000000)
        (generateChirp 1000000000 100000000 (1 / 1000000) 1000000000)).getD 999 0) < 18 / 5 := by
  rw [referenceChirp_cell 999 (by decide), map_mul, Complex.abs_exp_ofReal_mul_I, one_mul]
  have hπ1 : 3.14 < Real.pi := Real.pi_gt_d2
  have hπ2 : Real.pi < 3.15 := Real.pi_lt_d2
  have hx1 : 0.627 < Real.pi / 10000 * (2 * ((999 : ℕ) : ℝ)) := by push_cast; linarith
  have hx2 : Real.pi / 10000 * (2 * ((999 : ℕ) : ℝ)) < 0.63 := by push_cast; linarith
  generalize Real.pi / 10000 * (2 * ((999 : ℕ) : ℝ)) = x at hx1 hx2 ⊢
  have hsin : 0.56 < Real.sin x := by
    have h1 := Real.sin_gt_sub_cube (by linarith : 0 < x) (by linarith : x ≤ 1)
    have h2 : x ^ 3 < 0.63 ^ 3 := pow_lt_pow_left₀ hx2 (by linarith) (by decide)
    norm_num at h2
    linarith
  have him : (1 - Complex.exp (((-x : ℝ) : ℂ) * Complex.I)).im = Real.sin x := by
    rw [Complex.sub_im, Complex.one_im, Complex.exp_ofReal_mul_I_im, Real.sin_neg]
    ring
  have habs1 : 0.56 ≤ Complex.abs (1 - Complex.exp (((-x : ℝ) : ℂ) * Complex.I)) := by
    have h := Complex.abs_im_le_abs (1 - Complex.exp (((-x : ℝ) : ℂ) * Complex.I))
    rw [him, abs_of_pos (by linarith)] at h
    linarith
  have hb := abs_geom_sum_le (Complex.exp (((-x : ℝ) : ℂ) * Complex.I)) (999 + 1) 0.56
    (Complex.abs_exp_ofReal_mul_I _) (by norm_num) habs1
  have hc : (2 : ℝ) / 0.56 < 18 / 5 := by norm_num
  linarith

/-- Magnitude of output cell `3`: four unit terms almost in phase. -/
theorem referenceChirp_abs_three_gt :
    39 / 10 < Complex.abs
      ((matchedFilter (generateChirp 1000000000 100000000 (1 / 1000000) 1000000000)
        (generateChirp 1000000000 100000000 (1 / 1000000) 1000000000)).getD 3 0) := by
  rw [referenceChirp_cell 3 (by decide), map_mul, Complex.abs_exp_ofReal_mul_I, one_mul]
  set x : ℝ := -(Real.pi / 10000 * (2 * ((3 : ℕ) : ℝ))) with hx
  have hπ1 : 3.14 < Real.pi := Real.pi_gt_d2
  have hπ2 : Real.pi < 3.15 := Real.pi_lt_d2
  have hx1 : -0.002 < x := by rw [hx]; push_cast; linarith
  have hx2 : x < 0 := by rw [hx]; push_cast; linarith
  have hcos : ∀ j : ℕ, j ≤ 3 → 0.99 ≤ Real.cos ((j : ℝ) * x) := by
    intro j hj
    have hj' : (j : ℝ) ≤ 3 := by exact_mod_cast hj
    have hj0 : (0 : ℝ) ≤ j := Nat.cast_nonneg j
    have h1 := Real.one_sub_sq_div_two_le_cos (x := (j : ℝ) * x)
    have h2 : ((j : ℝ) * x) ^ 2 ≤ 0.006 ^ 2 := by
      have ha : -0.006 ≤ (j : ℝ) * x := by nlinarith
      have hb : (j : ℝ) * x ≤ 0.006 := by nlinarith
      exact sq_le_sq' ha hb
    norm_num at h2
    linarith
  have hre : (∑ j ∈ Finset.range (3 + 1), Complex.exp ((x : ℂ) * Complex.I) ^ j).re
      = ∑ j ∈ Finset.range (3 + 1), Real.cos ((j : ℝ) * x) := by
    rw [Complex.re_sum]
    refine Finset.sum_congr rfl (fun j _ => ?_)
    rw [exp_ofReal_mul_I_pow, Complex.exp_ofReal_mul_I_re]
  have hle := Complex.re_le_abs (∑ j ∈ Finset.range (3 + 1), Complex.exp ((x : ℂ) * Complex.I) ^ j)
  rw [hre] at hle
  have hsum : 4 * 0.99 ≤ ∑ j ∈ Finset.range (3 + 1), Real.cos ((j : ℝ) * x) := by
    simp only [Finset.sum_range_succ, Finset.sum_range_zero]
    have h0 := hcos 0 (by decide)
    have h1 := hcos 1 (by decide)
    have h2 := hcos 2 (by decide)
    have h3 := hcos 3 (by decide)
    linarith
  linarith

/-- C8, as stated, fails: in the self-matched reference chirp the sample at
index `999` is not the largest, the one at index `3` is larger. -/
theorem referenceChirp_peak_counterexample :
    ¬ (∀ i, i < 1000 →
      Complex.abs ((matchedFilter (generateChirp 1000000000 100000000 (1 / 1000000) 1000000000)
          (generateChirp 1000000000 100000000 (1 / 1000000) 1000000000)).getD i 0) ≤
      Complex.abs ((matchedFilter (generateChirp 1000000000 100000000 (1 / 1000000) 1000000000)
          (generateChirp 1000000000 100000000 (1 / 1000000) 1000000000)).getD 999 0)) := by
  intro h
  have h3 := h 3 (by decide)
  have ha := referenceChirp_abs_three_gt
  have hb := referenceChirp_abs_last_lt
  linarith

/-- C8 (amended): the reference chirp has exactly 1000 samples, matching it
against itself gives exactly 1000 samples, and the magnitude of the output at
index `999` is strictly below the magnitude at index `3`. -/
theorem referenceChirp_scenario :
    (generateChirp 1000000000 100000000 (1 / 1000000) 1000000000).length = 1000 ∧
    (matchedFilter (generateChirp 1000000000 100000000 (1 / 1000000) 1000000000)
        (generateChirp 1000000000 100000000 (1 / 1000000) 1000000000)).length = 1000 ∧
    Complex.abs ((matchedFilter (generateChirp 1000000000 100000000 (1 / 1000000) 1000000000)
        (generateChirp 1000000000 100000000 (1 / 1000000) 1000000000)).getD 999 0) <
      Complex.abs ((matchedFilter (generateChirp 1000000000 100000000 (1 / 1000000) 1000000000)
        (generateChirp 1000000000 100000000 (1 / 1000000) 1000000000)).getD 3 0) := by
  refine ⟨referenceChirp_length, ?_, ?_⟩
  · rw [matchedFilter_length, referenceChirp_length]
  · have ha := referenceChirp_abs_three_gt
    have hb := referenceChirp_abs_last_lt
    linarith

/-! ## Range-Doppler mapper -/

/-- The row-filling loop, run inside the row, overwrites positions
`j, ..., j + n - 1` with the bin magnitudes and keeps the rest. -/
theorem forLoop_writeRow (spectrum : List ℂ) (n j : ℕ) (row : List ℝ)
    (h : j + n ≤ row.length) :
    forLoop (writeRow spectrum) n j row =
      Except.ok ((List.range row.length).map (fun m =>
        if j ≤ m ∧ m < j + n then Complex.abs (spectrum.getD m 0) else row.getD m 0)) := by
  induction n generalizing j row with
  | zero =>
    simp only [forLoop]
    congr 1
    apply List.ext_getElem?
    intro m
    by_cases hm : m < row.length
    · have hno : ¬ (j ≤ m ∧ m < j) := by omega
      simp [List.getElem?_range hm, List.getD_eq_getElem?_getD, List.getElem?_eq_getElem hm, hno]
    · rw [List.getElem?_eq_none (by omega), List.getElem?_eq_none (by simp; omega)]
  | succ n ih =>
    have hj : j < row.length := by omega
    rw [forLoop]
    simp only [writeRow, hj, if_true]
    rw [ih (j + 1) _ (by rw [List.length_set]; omega), List.length_set]
    congr 1
    refine List.map_congr_left (fun m _ => ?_)
    by_cases hmj : m = j
    · subst hmj
      have h1 : ¬ (m + 1 ≤ m ∧ m < m + 1 + n) := by omega
      have h2 : m ≤ m ∧ m < m + (n + 1) := by omega
      rw [if_neg h1, if_pos h2, List.getD_eq_getElem?_getD, List.getElem?_set_self hj,
        Option.getD_some]
    · have hiff : (j + 1 ≤ m ∧ m < j + 1 + n) ↔ (j ≤ m ∧ m < j + (n + 1)) := by omega
      by_cases hc : j ≤ m ∧ m < j + (n + 1)
      · rw [if_pos (hiff.mpr hc), if_pos hc]
      · rw [if_neg (fun h => hc (hiff.mp h)), if_neg hc, List.getD_eq_getElem?_getD,
          List.getElem?_set_ne (Ne.symm hmj), ← List.getD_eq_getElem?_getD]

/-- Filling a row of the right length from position `0` gives the magnitudes
of all bins. -/
theorem forLoop_writeRow_full (spectrum : List ℂ) (row : List ℝ)
    (h : row.length = spectrum.length) :
    forLoop (writeRow spectrum) spectrum.length 0 row = Except.ok (spectrum.map Complex.abs) := by
  rw [forLoop_writeRow spectrum spectrum.length 0 row (by omega)]
  congr 1
  apply List.ext_getElem?
  intro m
  by_cases hm : m < spectrum.length
  · have hm2 : m < row.length := by omega
    simp [List.getElem?_range hm2, List.getD_eq_getElem?_getD, List.getElem?_eq_getElem hm, hm]
  · rw [List.getElem?_eq_none (by simp; omega), List.getElem?_eq_none (by simp; omega)]

/-- The loop over the pulses replaces rows `i, ..., i + n - 1` of the map by
the magnitude spectra of the corresponding pulses. -/
theorem forLoop_mapRow (pulses : List (List ℂ)) (L : ℕ)
    (hL : ∀ p ∈ pulses, p.length = L) (n i : ℕ) (map : List (List ℝ))
    (hmap : map.length = pulses.length) (hin : i + n ≤ pulses.length)
    (hrows : ∀ r, i ≤ r → r < pulses.length → (map.getD r []).length = L) :
    forLoop (mapRow pulses) n i map =
      Except.ok ((List.range pulses.length).map (fun r =>
        if i ≤ r ∧ r < i + n then (fft (pulses.getD r []) false).map Complex.abs
        else map.getD r [])) := by
  induction n generalizing i map with
  | zero =>
    simp only [forLoop]
    congr 1
    apply List.ext_getElem?
    intro m
    by_cases hm : m < pulses.length
    · have hm2 : m < map.length := by omega
      have hno : ¬ (i ≤ m ∧ m < i) := by omega
      simp [List.getElem?_range hm, List.getD_eq_getElem?_getD, List.getElem?_eq_getElem hm2, hno]
    · rw [List.getElem?_eq_none (by omega), List.getElem?_eq_none (by simp; omega)]
  | succ n ih =>
    have hi : i < pulses.length := by omega
    have hpi : (pulses.getD i []).length = L := by
      apply hL
      rw [List.getD_eq_getElem?_getD, List.getElem?_eq_getElem hi, Option.getD_some]
      exact List.getElem_mem hi
    have hrow : (map.getD i []).length = (fft (pulses.getD i []) false).length := by
      rw [fft_length, hpi]; exact hrows i le_rfl hi
    rw [forLoop]
    simp only [mapRow]
    rw [forLoop_writeRow_full _ _ hrow]
    simp only []
    rw [ih (i + 1) _ (by rw [List.length_set]; exact hmap) (by omega)
      (fun r hr1 hr2 => by
        rw [List.getD_eq_getElem?_getD, List.getElem?_set_ne (by omega),
          ← List.getD_eq_getElem?_getD]
        exact hrows r (by omega) hr2)]
    congr 1
    refine List.map_congr_left (fun r _ => ?_)
    by_cases hri : r = i
    · subst hri
      have h1 : ¬ (r + 1 ≤ r ∧ r < r + 1 + n) := by omega
      have h2 : r ≤ r ∧ r < r + (n + 1) := by omega
      rw [if_neg h1, if_pos h2, List.getD_eq_getElem?_getD,
        List.getElem?_set_self (by omega), Option.getD_some]
    · have hiff : (i + 1 ≤ r ∧ r < i + 1 + n) ↔ (i ≤ r ∧ r < i + (n + 1)) := by omega
      by_cases hc : i ≤ r ∧ r < i + (n + 1)
      · rw [if_pos (hiff.mpr hc), if_pos hc]
      · rw [if_neg (fun h => hc (hiff.mp h)), if_neg hc, List.getD_eq_getElem?_getD,
          List.getElem?_set_ne (Ne.symm hri), ← List.getD_eq_getElem?_getD]

/-- On a non-empty train of pulses of one length the map is the list of the
magnitude spectra of the pulses. -/
theorem rangeDopplerMap_eq (pulses : List (List ℂ)) (f0 fs : ℝ) (L : ℕ)
    (hne : pulses ≠ []) (hL : ∀ p ∈ pulses, p.length = L) :
    rangeDopplerMap pulses f0 fs =
      Except.ok (pulses.map (fun p => (fft p false).map Complex.abs)) := by
  cases pulses with
  | nil => exact absurd rfl hne
  | cons first rest =>
    have hfirst : first.length = L := hL first (List.mem_cons_self _ _)
    unfold rangeDopplerMap
    simp only [List.getElem?_cons_zero]
    rw [forLoop_mapRow (first :: rest) L hL _ 0 _ (by simp) (by omega)
      (fun r _ hr => by
        have hr2 : r < rest.length + 1 := by simpa using hr
        rw [List.getD_eq_getElem?_getD, List.getElem?_replicate]
        simp [hr2, hfirst])]
    congr 1
    apply List.ext_getElem?
    intro m
    by_cases hm : m < (first :: rest).length
    · rw [List.getElem?_map, List.getElem?_range hm, List.getElem?_map,
        List.getElem?_eq_getElem hm]
      simp only [Option.map_some']
      rw [if_pos (by omega), List.getD_eq_getElem?_getD, List.getElem?_eq_getElem hm,
        Option.getD_some]
    · rw [List.getElem?_eq_none (by simp at hm ⊢; omega),
        List.getElem?_eq_none (by simp at hm ⊢; omega)]

/-- C11: for a non-empty pulse train whose pulses all have the power-of-two
length `L = 2 ^ k`, `rangeDopplerMap` returns `pulse_count` rows of `L` entries;
entry `[i][j]` is the magnitude of bin `j` of the forward `fft` of `pulses[i]`
alone, hence non-negative, and the result does not depend on `f0` or `fs`. -/
theorem rangeDopplerMap_spec (pulses : List (List ℂ)) (f0 fs : ℝ) (k : ℕ)
    (hne : pulses ≠ []) (hL : ∀ p ∈ pulses, p.length = 2 ^ k) :
    ∃ M : List (List ℝ), rangeDopplerMap pulses f0 fs = Except.ok M ∧
      M.length = pulses.length ∧
      (∀ row ∈ M, row.length = 2 ^ k) ∧
      (∀ i j, i < pulses.length → j < 2 ^ k →
        (M.getD i []).getD j 0 = Complex.abs ((fft (pulses.getD i []) false).getD j 0) ∧
        0 ≤ (M.getD i []).getD j 0) ∧
      (∀ f0' fs' : ℝ, rangeDopplerMap pulses f0' fs' = Except.ok M) := by
  refine ⟨_, rangeDopplerMap_eq pulses f0 fs (2 ^ k) hne hL, by simp, ?_, ?_,
    fun f0' fs' => rangeDopplerMap_eq pulses f0' fs' (2 ^ k) hne hL⟩
  · intro row hrow
    obtain ⟨p, hp, rfl⟩ := List.mem_map.mp hrow
    rw [List.length_map, fft_length, hL p hp]
  · intro i j hi hj
    have hpi : pulses.getD i [] = pulses[i] := by
      rw [List.getD_eq_getElem?_getD, List.getElem?_eq_getElem hi, Option.getD_some]
    have hlen : (fft pulses[i] false).length = 2 ^ k := by
      rw [fft_length]; exact hL _ (List.getElem_mem hi)
    have hrow : (pulses.map (fun p => (fft p false).map Complex.abs)).getD i []
        = (fft pulses[i] false).map Complex.abs := by
      rw [List.getD_eq_getElem?_getD, List.getElem?_map, List.getElem?_eq_getElem hi]
      rfl
    have hent : ((fft pulses[i] false).map Complex.abs).getD j 0
        = Complex.abs ((fft pulses[i] false).getD j 0) := by
      rw [List.getD_eq_getElem?_getD, List.getElem?_map, List.getD_eq_getElem?_getD,
        List.getElem?_eq_getElem (by rw [hlen]; exact hj)]
      rfl
    rw [hrow, hpi, hent]
    exact ⟨rfl, Complex.abs.nonneg _⟩

theorem rangeDopplerMap_spec_witness :
    (([[1, 2], [Complex.I, 0]] : List (List ℂ)) ≠ []) ∧
    (∀ p ∈ ([[1, 2], [Complex.I, 0]] : List (List ℂ)), p.length = 2 ^ 1) ∧
    ∃ M : List (List ℝ), rangeDopplerMap [[1, 2], [Complex.I, 0]] 1 2 = Except.ok M ∧
      M.length = ([[1, 2], [Complex.I, 0]] : List (List ℂ)).length ∧
      (∀ row ∈ M, row.length = 2 ^ 1) ∧
      (∀ i j, i < ([[1, 2], [Complex.I, 0]] : List (List ℂ)).length → j < 2 ^ 1 →
        (M.getD i []).getD j 0 =
          Complex.abs ((fft (([[1, 2], [Complex.I, 0]] : List (List ℂ)).getD i []) false).getD j 0) ∧
        0 ≤ (M.getD i []).getD j 0) ∧
      (∀ f0' fs' : ℝ, rangeDopplerMap [[1, 2], [Complex.I, 0]] f0' fs' = Except.ok M) :=
  ⟨by simp, by simp,
    rangeDopplerMap_spec [[1, 2], [Complex.I, 0]] 1 2 1 (by simp) (by simp)⟩

/-! ## Spectral transform against the specification's formula -/

theorem twiddle_pow_eq_exp (inverse : Bool) (N k m : ℕ) :
    twiddle inverse N ^ (k * m) =
      Complex.exp ((if inverse then -1 else 1) * (2 * (Real.pi : ℂ) * Complex.I)
        * (k : ℂ) * (m : ℂ) / (N : ℂ)) := by
  rw [twiddle_eq_exp, ← Complex.exp_nat_mul]
  congr 1
  cases inverse <;> · push_cast; simp; ring

theorem naiveDft_twiddle_eq_dftSpec (x : List ℂ) (inverse : Bool) :
    naiveDft (twiddle inverse x.length) x = dftSpec x inverse := by
  unfold naiveDft dftSpec
  refine List.map_congr_left (fun k _ => ?_)
  refine Finset.sum_congr rfl (fun m _ => ?_)
  rw [twiddle_pow_eq_exp]

/-- C12: on a power-of-two length `N` the recursive radix-2 `fft` is the naive
transform of the specification: element `j` is `Σ_{m<N} x[m] exp (s 2πi j m / N)`
with `s = +1` forward and `s = -1` inverse, without a `1/N` factor; a signal of
length at most one is returned unchanged. -/
theorem fft_eq_dftSpec (x : List ℂ) (inverse : Bool) (k : ℕ) (hlen : x.length = 2 ^ k)
    (j : ℕ) (hj : j < x.length) :
    fft x inverse = dftSpec x inverse ∧
    (fft x inverse)[j]? = some (∑ m ∈ Finset.range x.length,
      x.getD m 0 * Complex.exp ((if inverse then -1 else 1) * (2 * (Real.pi : ℂ) * Complex.I)
        * (j : ℂ) * (m : ℂ) / (x.length : ℂ))) ∧
    (∀ y : List ℂ, y.length ≤ 1 → fft y inverse = y) := by
  have h : fft x inverse = dftSpec x inverse := by
    rw [fft_eq_naiveDft x inverse k hlen, ← hlen, naiveDft_twiddle_eq_dftSpec]
  refine ⟨h, ?_, fun y hy => fftWith_short _ y hy⟩
  rw [h]
  simp [dftSpec, List.getElem?_range hj]

theorem fft_eq_dftSpec_witness :
    (([1, 2, Complex.I, 0] : List ℂ).length = 2 ^ 2) ∧ (3 < ([1, 2, Complex.I, 0] : List ℂ).length) ∧
    (fft [1, 2, Complex.I, 0] true = dftSpec [1, 2, Complex.I, 0] true ∧
    (fft [1, 2, Complex.I, 0] true)[3]? = some (∑ m ∈ Finset.range ([1, 2, Complex.I, 0] : List ℂ).length,
      ([1, 2, Complex.I, 0] : List ℂ).getD m 0 *
        Complex.exp ((if true then -1 else 1) * (2 * (Real.pi : ℂ) * Complex.I)
          * ((3 : ℕ) : ℂ) * (m : ℂ) / (([1, 2, Complex.I, 0] : List ℂ).length : ℂ))) ∧
    (∀ y : List ℂ, y.length ≤ 1 → fft y true = y)) :=
  ⟨by simp, by simp, fft_eq_dftSpec [1, 2, Complex.I, 0] true 2 (by simp) 3 (by simp)⟩

/-! ## CFAR detector: invariance under scaling -/

end RadarToolkit
